import Mathlib

/-
Shallow embedding of the core of Tileboard (Source/Tileboard.py):
board construction from extended FEN notation, the base-26 coordinate
codec, algebraic position resolution, tileset size validation and the
layout size computation performed in main.

Python strings are modelled as lists of characters, Python integers as
Int (or as Nat where the source value is always a non-negative count).
Python floor division and modulo are modelled by Int division and
modulo, which agree with Python for the positive divisors used here.
-/

set_option maxHeartbeats 1000000
set_option maxRecDepth 8192

/-- Single exception type of Tileboard (class TileboardError).  Each
constructor corresponds to one raise site among the embedded operations,
carrying the data interpolated into the message. -/
inductive TileboardError where
  | emptyPosition
  | invalidPosition (position : List Char)
  | positionOutOfBoard (position : List Char)
  | imageNotSquare (filename : List Char)
  | imageSizesMismatch (first second : List Char)
  deriving DecidableEq

/-- Board value as produced by Board.__init__ : the expanded and padded
rows together with the computed width and height. -/
structure Board where
  rows : List (List Char)
  width : Nat
  height : Nat
  deriving DecidableEq

/-- Body of Board.validate_position : a position has rows exactly when
some character differs from the row separator. -/
def has_rows (position : List Char) : Bool :=
  position.any (fun c => !(c == '/'))

/-- Board.expand_position_numbers : replace every digit 1..9 (code points
49..57) by that many blank characters.  The digit 0 is not mentioned by
the pattern and is left in place. -/
def expand_position_numbers (position : List Char) : List Char :=
  position.flatMap (fun c =>
    if 49 ≤ c.toNat ∧ c.toNat ≤ 57 then List.replicate (c.toNat - 48) ' ' else [c])

/-- Python str.split on the row separator character. -/
def split_slash : List Char → List (List Char)
  | [] => [[]]
  | c :: rest =>
    if c = '/' then [] :: split_slash rest
    else
      match split_slash rest with
      | [] => [[c]]
      | r :: rs => (c :: r) :: rs

/-- Python str.ljust : pad a row on the right up to the given width. -/
def ljust (row : List Char) (width : Nat) (c : Char) : List Char :=
  row ++ List.replicate (width - row.length) c

/-- Board.__init__ : validate the position, expand the numbers, split on
the row separator, compute width and height, and pad every row with the
hole character. -/
def Board.make (position : List Char) : Except TileboardError Board :=
  if has_rows position then
    let rows0 := split_slash (expand_position_numbers position)
    let width := (rows0.map List.length).foldl max 0
    .ok { rows := rows0.map (fun r => ljust r width '0')
          width := width
          height := rows0.length }
  else .error .emptyPosition

/-- walk_board : all tiles of the board in row order, optionally ignoring
blanks and holes. -/
def walk_board (board : Board) (ignore_blanks ignore_holes : Bool) : List Char :=
  board.rows.flatMap (fun row =>
    row.filter (fun tile =>
      !((tile == ' ') && ignore_blanks) && !((tile == '0') && ignore_holes)))

/-- Remainder computed by one iteration of the loop in to_base26: the
residue of number mod 26, decremented when this is not the first letter
and number is below 25. -/
def to_remainder (number : Nat) (first : Bool) : Int :=
  if first = false ∧ number < 25 then ((number % 26 : Nat) : Int) - 1
  else ((number % 26 : Nat) : Int)

/-- Loop of to_base26.  Each iteration prepends one character and
continues on (number - remainder) // 26 until that quotient is zero. -/
def to_base26_go (number : Nat) (first : Bool) : List Char :=
  if h : (((number : Int) - to_remainder number first) / 26).toNat = 0 then
    [Char.ofNat (97 + to_remainder number first).toNat]
  else
    to_base26_go (((number : Int) - to_remainder number first) / 26).toNat false
      ++ [Char.ofNat (97 + to_remainder number first).toNat]
  termination_by number
  decreasing_by
    by_cases hc : (false = false ∧ number < 25)
    · exfalso
      apply h
      simp only [to_remainder, if_pos hc]
      omega
    · simp only [to_remainder, if_neg hc] at h ⊢
      omega

/-- to_base26 : convert a zero-based integer to a lowercase letter
string. -/
def to_base26 (number : Nat) : List Char :=
  to_base26_go number true

/-- Value ord(c.lower()) - 97 used by from_base26 on each character. -/
def letter_value (c : Char) : Int :=
  (c.toLower.toNat : Int) - 97

/-- Body of from_base26 on a nonempty string split into its first
character and the remaining characters. -/
def from_base26_core (c : Char) (rest : List Char) : Int :=
  let n0 := letter_value c
  let n1 := if rest = [] then n0 else if n0 < 25 then n0 + 1 else n0
  rest.foldl (fun acc ch => acc * 26 + letter_value ch) n1

/-- from_base26 : convert a base-26 string back to a zero-based integer.
The source indexes string[0], so the empty string is a failure. -/
def from_base26 : List Char → Option Int
  | [] => none
  | c :: rest => some (from_base26_core c rest)

/-- Decimal string for a natural number, Python str(n). -/
def nat_str (n : Nat) : List Char :=
  Nat.toDigits 10 n

/-- generate_border_rows_text : the column labels, to_base26 of every
column index, upper or lower cased. -/
def generate_border_rows_text (board : Board) (uppercase : Bool) : List (List Char) :=
  if uppercase then (List.range board.width).map (fun n => (to_base26 n).map Char.toUpper)
  else (List.range board.width).map (fun n => (to_base26 n).map Char.toLower)

/-- generate_border_cols_text : the row labels, str(height) down to
str(1). -/
def generate_border_cols_text (board : Board) : List (List Char) :=
  ((List.range board.height).map (fun n => nat_str (n + 1))).reverse

/-- Character class [A-Za-z] of the position regular expression (with
re.IGNORECASE, [A-Z] matches both cases). -/
def isAsciiLetter (c : Char) : Bool :=
  (65 ≤ c.toNat && c.toNat ≤ 90) || (97 ≤ c.toNat && c.toNat ≤ 122)

/-- Character class [0-9] of the position regular expression. -/
def isAsciiDigit (c : Char) : Bool :=
  48 ≤ c.toNat && c.toNat ≤ 57

/-- Python int() on a string of decimal digits. -/
def decimal_value (s : List Char) : Nat :=
  s.foldl (fun acc c => acc * 10 + (c.toNat - 48)) 0

/-- Span of the string covered by the anchors of re.search: the dollar
anchor matches at the end of the string and also just before one final
newline character (code point 10), so a single trailing newline is
excluded from the match. -/
def strip_dollar_newline (position : List Char) : List Char :=
  if position.getLast? = some (Char.ofNat 10) then position.dropLast else position

/-- Match and resolution of parse_position on the span covered by the
anchors.  The regular expression ^([A-Z]+)([0-9]+)$ is embedded as the
decomposition of the span into its maximal letter prefix followed by a
nonempty all-digit suffix.  The errors carry the original position
string. -/
def parse_position_body (position : List Char) (board : Board) (body : List Char) :
    Except TileboardError (Int × Int) :=
  match body.takeWhile isAsciiLetter, body.dropWhile isAsciiLetter with
  | [], _ => .error (.invalidPosition position)
  | _ :: _, [] => .error (.invalidPosition position)
  | c :: rest, ds =>
    if ds.all isAsciiDigit then
      let x : Int := from_base26_core c rest
      let y : Int := (board.height : Int) - (decimal_value ds : Int)
      if x < 0 ∨ x > (board.width : Int) - 1 ∨ y < 0 ∨ y > (board.height : Int) - 1 then
        .error (.positionOutOfBoard position)
      else
        .ok (x, y)
    else .error (.invalidPosition position)

/-- parse_position : resolve an algebraic position string against a
board.  Python re.search of an anchored pattern runs the match over the
whole string, where the dollar anchor also accepts one final newline;
that newline is therefore ignored by the match. -/
def parse_position (position : List Char) (board : Board) :
    Except TileboardError (Int × Int) :=
  parse_position_body position board (strip_dollar_newline position)

/-- Size and name of one loaded image, the data validate_tile_sizes
inspects. -/
structure ImageInfo where
  filename : List Char
  width : Nat
  height : Nat
  deriving DecidableEq

/-- Loop of validate_tile_sizes, threading the size and filename of the
previous image. -/
def validate_tile_sizes_go :
    Option (Nat × List Char) → List ImageInfo → Except TileboardError (Option Nat)
  | last, [] => .ok (last.map Prod.fst)
  | last, img :: rest =>
    if img.width ≠ img.height then .error (.imageNotSquare img.filename)
    else
      match last with
      | some (s, lastname) =>
        if img.width ≠ s ∨ img.height ≠ s then
          .error (.imageSizesMismatch lastname img.filename)
        else validate_tile_sizes_go (some (img.width, img.filename)) rest
      | none => validate_tile_sizes_go (some (img.width, img.filename)) rest

/-- validate_tile_sizes : ensure a set of images are squares of equal
size, returning that size, or none for an empty collection. -/
def validate_tile_sizes (images : List ImageInfo) : Except TileboardError (Option Nat) :=
  validate_tile_sizes_go none images

/-- Distinct pieces of a board in first-occurrence order, as collected
by the dictionary fill of load_tileset. -/
def tileset_pieces (board : Board) : List Char :=
  (walk_board board true true).foldl
    (fun acc piece => if piece ∈ acc then acc else acc ++ [piece]) []

/-- Tile size determination of main (lines 630-639): validate the loaded
tileset sizes, and fall back to the configured size when the board has
no pieces.  Image loading is abstracted as a function from piece to
image data. -/
def determine_tilesize (board : Board) (load : Char → ImageInfo) (tileset_size : Nat) :
    Except TileboardError Nat :=
  match validate_tile_sizes ((tileset_pieces board).map load) with
  | .error e => .error e
  | .ok none => .ok tileset_size
  | .ok (some s) => .ok s

/-- calculate_outline_size : max(tilesize // 100, 1). -/
def calculate_outline_size (tilesize : Int) : Int :=
  max (tilesize / 100) 1

/-- calculate_border_font_size : max(tilesize // 3, 12). -/
def calculate_border_font_size (tilesize : Int) : Int :=
  max (tilesize / 3) 12

/-- calculate_border_size : the band is the maximum of tilesize // 2 and
the measured widths, plus 10 pixels of padding, of to_base26(width) and
str(height).  Font metrics are abstracted as a function from text to
measured width. -/
def calculate_border_size (board : Board) (tilesize : Int) (getsize : List Char → Int) : Int :=
  max (max (tilesize / 2) (getsize (to_base26 board.width) + 10))
    (getsize (nat_str board.height) + 10)

/-- Pixel geometry computed by main: canvas size, per-layer thicknesses
and the top-left offset of the board area. -/
structure Geometry where
  image_width : Int
  image_height : Int
  outer_outline_size : Int
  border_size : Int
  inner_outline_size : Int
  board_x : Int
  board_y : Int
  deriving DecidableEq

/-- Layout computation of main (lines 641-668), together with the board
area offset main passes to the checkerboard and piece drawing calls
(lines 757-783).  Each enabled layer contributes its thickness twice to
both canvas dimensions; the board offset is the sum of the enabled
thicknesses.  Font metrics are abstracted as a function from font size
and text to measured width. -/
def compute_layout (board : Board) (tilesize : Int)
    (outer_outline_disable border_disable inner_outline_disable : Bool)
    (getsize : Int → List Char → Int) : Geometry :=
  let outer_outline_size : Int :=
    if !outer_outline_disable then calculate_outline_size tilesize else 0
  let border_font_size : Int := calculate_border_font_size tilesize
  let border_size : Int :=
    if !border_disable then calculate_border_size board tilesize (getsize border_font_size)
    else 0
  let inner_outline_size : Int :=
    if !inner_outline_disable then calculate_outline_size tilesize else 0
  { image_width := tilesize * board.width
      + outer_outline_size * 2 + border_size * 2 + inner_outline_size * 2
    image_height := tilesize * board.height
      + outer_outline_size * 2 + border_size * 2 + inner_outline_size * 2
    outer_outline_size := outer_outline_size
    border_size := border_size
    inner_outline_size := inner_outline_size
    board_x := outer_outline_size + border_size + inner_outline_size
    board_y := outer_outline_size + border_size + inner_outline_size }

/-- Modelled from the spec: the border band thickness as the claim for
calculate_border_size states it, max of tilesize // 2, the measured
width of the longest of the column labels to_base26(0) .. to_base26
(width - 1) plus 10, and the measured width of the longest of the row
labels str(height) .. str(1) plus 10. -/
def border_size_per_claim (board : Board) (tilesize : Int) (getsize : List Char → Int) : Int :=
  max (max (tilesize / 2)
      (((List.range board.width).map (fun i => getsize (to_base26 i))).foldl max 0 + 10))
    (((List.range board.height).map (fun i => getsize (nat_str (i + 1)))).foldl max 0 + 10)

/-- Sample board: the result of parsing 8/8/8/8/8/8/8/8. -/
def board8 : Board :=
  { rows := List.replicate 8 (List.replicate 8 ' ')
    width := 8
    height := 8 }

/-- Sample board of 26 columns, one blank row. -/
def board26 : Board :=
  { rows := [List.replicate 26 ' ']
    width := 26
    height := 1 }

/-- Monospace font metrics: every character measures 7 pixels wide. -/
def mono7 (s : List Char) : Int :=
  7 * s.length

/-- Monospace font metrics taking the font size argument of
compute_layout. -/
def mono7_sized (_size : Int) (s : List Char) : Int :=
  mono7 s

-- Lemmas about the base-26 codec.

lemma to_remainder_true (n : Nat) : to_remainder n true = ((n % 26 : Nat) : Int) := by
  simp [to_remainder]

lemma to_remainder_false_small (n : Nat) (h : n < 25) :
    to_remainder n false = ((n % 26 : Nat) : Int) - 1 := by
  simp [to_remainder, h]

lemma to_remainder_false_big (n : Nat) (h : 25 ≤ n) :
    to_remainder n false = ((n % 26 : Nat) : Int) := by
  unfold to_remainder
  rw [if_neg]
  omega

lemma to_base26_go_first_small (n : Nat) (h : n ≤ 25) :
    to_base26_go n true = [Char.ofNat (97 + n)] := by
  have hr : to_remainder n true = ((n % 26 : Nat) : Int) := to_remainder_true n
  have hcond : (((n : Int) - ((n % 26 : Nat) : Int)) / 26).toNat = 0 := by omega
  have hch : ((97:Int) + ((n % 26 : Nat) : Int)).toNat = 97 + n := by omega
  unfold to_base26_go
  simp only [dite_eq_ite, hr, hcond, hch]
  simp

lemma to_base26_go_first_big (n : Nat) (h : 26 ≤ n) :
    to_base26_go n true = to_base26_go (n / 26) false ++ [Char.ofNat (97 + n % 26)] := by
  have hr : to_remainder n true = ((n % 26 : Nat) : Int) := to_remainder_true n
  have harg : (((n : Int) - ((n % 26 : Nat) : Int)) / 26).toNat = n / 26 := by omega
  have hch : ((97:Int) + ((n % 26 : Nat) : Int)).toNat = 97 + n % 26 := by omega
  conv_lhs => unfold to_base26_go
  simp only [dite_eq_ite, hr, harg, hch]
  rw [if_neg (by omega)]

lemma to_base26_go_false_small (n : Nat) (h1 : 1 ≤ n) (h2 : n ≤ 24) :
    to_base26_go n false = [Char.ofNat (96 + n)] := by
  have hr : to_remainder n false = ((n % 26 : Nat) : Int) - 1 :=
    to_remainder_false_small n (by omega)
  have hcond : (((n : Int) - (((n % 26 : Nat) : Int) - 1)) / 26).toNat = 0 := by omega
  have hch : ((97:Int) + (((n % 26 : Nat) : Int) - 1)).toNat = 96 + n := by omega
  unfold to_base26_go
  simp only [dite_eq_ite, hr, hcond, hch]
  simp

lemma to_base26_go_false_25 : to_base26_go 25 false = ['z'] := by
  unfold to_base26_go
  rw [dif_pos (by decide)]
  decide

lemma to_base26_go_false_big (n : Nat) (h : 26 ≤ n) :
    to_base26_go n false = to_base26_go (n / 26) false ++ [Char.ofNat (97 + n % 26)] := by
  have hr : to_remainder n false = ((n % 26 : Nat) : Int) :=
    to_remainder_false_big n (by omega)
  have harg : (((n : Int) - ((n % 26 : Nat) : Int)) / 26).toNat = n / 26 := by omega
  have hch : ((97:Int) + ((n % 26 : Nat) : Int)).toNat = 97 + n % 26 := by omega
  conv_lhs => unfold to_base26_go
  simp only [dite_eq_ite, hr, harg, hch]
  rw [if_neg (by omega)]

/-- Interpretation of a letter string as from_base26 computes it when the
string is followed by further letters: the first letter is always
adjusted. -/
def val26 : List Char → Int
  | [] => 0
  | c :: rest =>
    rest.foldl (fun acc ch => acc * 26 + letter_value ch)
      (if letter_value c < 25 then letter_value c + 1 else letter_value c)

lemma letter_value_ofNat (k : Nat) (h : k ≤ 25) :
    letter_value (Char.ofNat (97 + k)) = (k : Int) := by
  interval_cases k <;> decide

lemma val26_append (c0 : Char) (s : List Char) (c : Char) :
    val26 ((c0 :: s) ++ [c]) = val26 (c0 :: s) * 26 + letter_value c := by
  simp [val26, List.foldl_append]

lemma from_base26_core_eq_val26 (c : Char) (rest : List Char) (h : rest ≠ []) :
    from_base26_core c rest = val26 (c :: rest) := by
  simp [from_base26_core, val26, h]

lemma to_base26_go_false_spec (n : Nat) (h : 1 ≤ n) :
    to_base26_go n false ≠ [] ∧ val26 (to_base26_go n false) = (n : Int) := by
  induction n using Nat.strong_induction_on with
  | _ n ih =>
    rcases Nat.lt_or_ge n 25 with hs | hb
    · rw [to_base26_go_false_small n h (by omega)]
      refine ⟨by simp, ?_⟩
      have : (96 + n) = 97 + (n - 1) := by omega
      rw [this, val26]
      rw [letter_value_ofNat (n - 1) (by omega)]
      simp only [List.foldl_nil]
      rw [if_pos (by omega)]
      omega
    · rcases Nat.lt_or_ge n 26 with h25 | h26
      · have hn : n = 25 := by omega
        subst hn
        rw [to_base26_go_false_25]
        refine ⟨by simp, ?_⟩
        rw [val26]
        decide
      · rw [to_base26_go_false_big n h26]
        have hq1 : 1 ≤ n / 26 := by omega
        have hqlt : n / 26 < n := by omega
        obtain ⟨hne, hval⟩ := ih (n / 26) hqlt hq1
        obtain ⟨c0, s, hcs⟩ := List.exists_cons_of_ne_nil hne
        rw [hcs] at hval ⊢
        refine ⟨by simp, ?_⟩
        rw [val26_append, hval, letter_value_ofNat (n % 26) (by omega)]
        omega

lemma from_to_base26 (n : Nat) : from_base26 (to_base26 n) = some (n : Int) := by
  rcases Nat.lt_or_ge n 26 with hs | hb
  · rw [to_base26, to_base26_go_first_small n (by omega)]
    rw [from_base26, from_base26_core]
    rw [letter_value_ofNat n (by omega)]
    simp
  · rw [to_base26, to_base26_go_first_big n hb]
    have hq1 : 1 ≤ n / 26 := by omega
    obtain ⟨hne, hval⟩ := to_base26_go_false_spec (n / 26) hq1
    obtain ⟨c0, s, hcs⟩ := List.exists_cons_of_ne_nil hne
    rw [hcs] at hval ⊢
    rw [List.cons_append, from_base26]
    rw [from_base26_core_eq_val26 c0 (s ++ [Char.ofNat (97 + n % 26)]) (by simp)]
    rw [← List.cons_append, val26_append, hval, letter_value_ofNat (n % 26) (by omega)]
    congr 1
    omega

/-- C1: for every non-negative integer n, from_base26 (to_base26 n)
recovers n; the encoding follows the bijective base-26 sequence at the
listed values 0, 1, 25, 26, 27, 51 and 52; and to_base26 is injective,
so the pair is a bijection between the natural numbers and the encoded
strings, with from_base26 as its inverse. -/
theorem base26_roundtrip_and_sequence :
    (∀ n : Nat, from_base26 (to_base26 n) = some (n : Int))
    ∧ to_base26 0 = ['a'] ∧ to_base26 1 = ['b'] ∧ to_base26 25 = ['z']
    ∧ to_base26 26 = ['a', 'a'] ∧ to_base26 27 = ['a', 'b']
    ∧ to_base26 51 = ['a', 'z'] ∧ to_base26 52 = ['b', 'a']
    ∧ Function.Injective to_base26 := by
  refine ⟨from_to_base26, ?_, ?_, ?_, ?_, ?_, ?_, ?_, ?_⟩
  · rw [to_base26, to_base26_go_first_small 0 (by omega)]
  · rw [to_base26, to_base26_go_first_small 1 (by omega)]
  · rw [to_base26, to_base26_go_first_small 25 (by omega)]
  · rw [to_base26, to_base26_go_first_big 26 (by omega)]
    norm_num
    rw [to_base26_go_false_small 1 (by omega) (by omega)]
    decide
  · rw [to_base26, to_base26_go_first_big 27 (by omega)]
    norm_num
    rw [to_base26_go_false_small 1 (by omega) (by omega)]
    decide
  · rw [to_base26, to_base26_go_first_big 51 (by omega)]
    norm_num
    rw [to_base26_go_false_small 1 (by omega) (by omega)]
    decide
  · rw [to_base26, to_base26_go_first_big 52 (by omega)]
    norm_num
    rw [to_base26_go_false_small 2 (by omega) (by omega)]
    decide
  · intro a b hab
    have ha := from_to_base26 a
    have hb := from_to_base26 b
    rw [hab] at ha
    rw [ha] at hb
    exact Nat.cast_injective (Option.some.inj hb)

-- Decidable equality for Except, for concrete evaluations.

deriving instance DecidableEq for Except

-- Lemmas about board construction.

lemma split_slash_ne_nil (l : List Char) : split_slash l ≠ [] := by
  cases l with
  | nil => simp [split_slash]
  | cons c rest =>
    rw [split_slash]
    split
    · simp
    · split <;> simp

lemma split_slash_length (l : List Char) : (split_slash l).length = l.count '/' + 1 := by
  induction l with
  | nil => simp [split_slash]
  | cons c rest ih =>
    rw [split_slash]
    by_cases hc : c = '/'
    · rw [if_pos hc, List.length_cons, ih, hc]
      simp [List.count_cons]
    · rw [if_neg hc]
      cases hsp : split_slash rest with
      | nil => exact absurd hsp (split_slash_ne_nil rest)
      | cons r rs =>
        rw [hsp] at ih
        simp only [List.length_cons] at ih ⊢
        rw [List.count_cons, if_neg (by simp [hc])]
        omega

lemma expand_count_slash (l : List Char) :
    (expand_position_numbers l).count '/' = l.count '/' := by
  induction l with
  | nil => rfl
  | cons c rest ih =>
    simp only [expand_position_numbers, List.flatMap_cons] at ih ⊢
    rw [List.count_append, ih]
    by_cases hd : 49 ≤ c.toNat ∧ c.toNat ≤ 57
    · have hc : ¬ c = '/' := by
        intro h
        subst h
        exact absurd hd (by decide)
      rw [if_pos hd]
      simp [List.count_replicate, List.count_cons, hc]
    · rw [if_neg hd]
      simp [List.count_cons]
      omega

lemma le_foldl_max (l : List Nat) (a : Nat) : a ≤ l.foldl max a := by
  induction l generalizing a with
  | nil => simp
  | cons x xs ih => exact le_trans (Nat.le_max_left a x) (ih (max a x))

lemma foldl_max_le (l : List Nat) : ∀ (a x : Nat), x ∈ l → x ≤ l.foldl max a := by
  induction l with
  | nil =>
    intro a x hx
    cases hx
  | cons y ys ih =>
    intro a x hx
    rw [List.foldl_cons]
    rcases List.mem_cons.mp hx with h | h
    · subst h
      exact le_trans (Nat.le_max_right a x) (le_foldl_max ys (max a x))
    · exact ih (max a y) x h

lemma foldl_max_mem (l : List Nat) : ∀ a, l.foldl max a = a ∨ l.foldl max a ∈ l := by
  induction l with
  | nil =>
    intro a
    left
    rfl
  | cons y ys ih =>
    intro a
    rw [List.foldl_cons]
    rcases ih (max a y) with h | h
    · rcases max_choice a y with hm | hm
      · left
        rw [h, hm]
      · right
        rw [h, hm]
        exact List.mem_cons_self y ys
    · right
      exact List.mem_cons_of_mem y h

lemma has_rows_iff (p : List Char) : has_rows p = true ↔ ∃ c ∈ p, c ≠ '/' := by
  simp [has_rows]

/-- Witness for C1: the round trip evaluated at 5. -/
theorem base26_roundtrip_and_sequence_witness :
    from_base26 (to_base26 5) = some (5 : Int) :=
  base26_roundtrip_and_sequence.1 5

/-- C3: constructing a Board fails with the empty-position error exactly
when the position string contains no character other than the row
separator; in particular the empty string and a string of slashes fail,
and any string with at least one other character succeeds. -/
theorem empty_position_error :
    (∀ p : List Char, Board.make p = .error .emptyPosition ↔ ∀ c ∈ p, c = '/')
    ∧ Board.make [] = .error .emptyPosition
    ∧ Board.make ['/', '/', '/'] = .error .emptyPosition
    ∧ (∀ p : List Char, (∃ c ∈ p, c ≠ '/') → ∃ b, Board.make p = .ok b) := by
  refine ⟨?_, by decide, by decide, ?_⟩
  · intro p
    by_cases hp : has_rows p = true
    · rw [Board.make, if_pos hp]
      simp only [has_rows, List.any_eq_true, Bool.not_eq_true', beq_eq_false_iff_ne] at hp
      obtain ⟨c, hc, hne⟩ := hp
      constructor
      · intro h
        exact absurd h (by simp)
      · intro h
        exact absurd (h c hc) hne
    · rw [Board.make, if_neg hp]
      simp only [has_rows, List.any_eq_true, Bool.not_eq_true', beq_eq_false_iff_ne] at hp
      push_neg at hp
      constructor
      · intro _ c hc
        exact hp c hc
      · intro _
        rfl
  · intro p hp
    have h : has_rows p = true := (has_rows_iff p).mpr hp
    rw [Board.make, if_pos h]
    exact ⟨_, rfl⟩

/-- Witness for C3: a one-character position is accepted. -/
theorem empty_position_error_witness :
    (∃ c ∈ ['a'], c ≠ '/') ∧ (∃ b, Board.make ['a'] = .ok b) :=
  ⟨by decide, empty_position_error.2.2.2 ['a'] (by decide)⟩

/-- C4: for a position with at least one character other than the row
separator, construction succeeds, the height is the number of separated
rows, the width is the maximum row length after digit expansion, and
every row of the final board has length exactly width, obtained by
right-padding with the hole character. -/
theorem board_shape_after_parse :
    ∀ p : List Char, (∃ c ∈ p, c ≠ '/') →
    ∃ b : Board, Board.make p = .ok b
      ∧ b.height = p.count '/' + 1
      ∧ (∀ r ∈ split_slash (expand_position_numbers p), r.length ≤ b.width)
      ∧ (∃ r ∈ split_slash (expand_position_numbers p), r.length = b.width)
      ∧ (∀ r ∈ b.rows, r.length = b.width)
      ∧ b.rows = (split_slash (expand_position_numbers p)).map
          (fun r => r ++ List.replicate (b.width - r.length) '0') := by
  intro p hp
  have h : has_rows p = true := (has_rows_iff p).mpr hp
  rw [Board.make, if_pos h]
  refine ⟨_, rfl, ?_, ?_, ?_, ?_, ?_⟩ <;> dsimp only
  · rw [split_slash_length, expand_count_slash]
  · intro r hr
    exact foldl_max_le _ 0 r.length (List.mem_map_of_mem List.length hr)
  · rcases foldl_max_mem ((split_slash (expand_position_numbers p)).map List.length) 0
      with hz | hm
    · cases hrows : split_slash (expand_position_numbers p) with
      | nil => exact absurd hrows (split_slash_ne_nil _)
      | cons r rs =>
        rw [hrows] at hz
        refine ⟨r, List.mem_cons_self r rs, ?_⟩
        have hle : r.length ≤ ((r :: rs).map List.length).foldl max 0 :=
          foldl_max_le _ 0 r.length
            (List.mem_map_of_mem List.length (List.mem_cons_self r rs))
        omega
    · obtain ⟨r, hr, hlen⟩ := List.mem_map.mp hm
      exact ⟨r, hr, hlen⟩
  · intro r hr
    obtain ⟨r0, hr0, hr0eq⟩ := List.mem_map.mp hr
    have hle : r0.length ≤ ((split_slash (expand_position_numbers p)).map
        List.length).foldl max 0 :=
      foldl_max_le _ 0 r0.length (List.mem_map_of_mem List.length hr0)
    rw [← hr0eq]
    simp only [ljust, List.length_append, List.length_replicate]
    omega
  · rfl

/-- Witness for C4: the one-character position a. -/
theorem board_shape_after_parse_witness :
    (∃ c ∈ ['a'], c ≠ '/')
    ∧ (∃ b : Board, Board.make ['a'] = .ok b
      ∧ b.height = List.count '/' ['a'] + 1
      ∧ (∀ r ∈ split_slash (expand_position_numbers ['a']), r.length ≤ b.width)
      ∧ (∃ r ∈ split_slash (expand_position_numbers ['a']), r.length = b.width)
      ∧ (∀ r ∈ b.rows, r.length = b.width)
      ∧ b.rows = (split_slash (expand_position_numbers ['a'])).map
          (fun r => r ++ List.replicate (b.width - r.length) '0')) :=
  ⟨by decide, board_shape_after_parse ['a'] (by decide)⟩

/-- Position string 8/8/8/8/8/8/8/8. -/
def chess8 : List Char :=
  ['8', '/', '8', '/', '8', '/', '8', '/', '8', '/', '8', '/', '8', '/', '8']

/-- C5: every digit 1..9 expands to that many blanks, expansion is
character-wise, the digit 0 is left alone, and the position
8/8/8/8/8/8/8/8 yields the 8 by 8 board of all blanks. -/
theorem digit_expansion :
    (∀ c : Char, expand_position_numbers [c] =
        if 49 ≤ c.toNat ∧ c.toNat ≤ 57 then List.replicate (c.toNat - 48) ' ' else [c])
    ∧ (∀ p q : List Char, expand_position_numbers (p ++ q)
        = expand_position_numbers p ++ expand_position_numbers q)
    ∧ expand_position_numbers ['0'] = ['0']
    ∧ Board.make chess8 = .ok board8
    ∧ board8.width = 8 ∧ board8.height = 8
    ∧ board8.rows = List.replicate 8 (List.replicate 8 ' ') := by
  refine ⟨?_, ?_, by decide, by decide, rfl, rfl, rfl⟩
  · intro c
    simp [expand_position_numbers]
  · intro p q
    simp [expand_position_numbers]

-- Lemmas about algebraic position parsing.

lemma digit_not_letter (c : Char) (h : isAsciiDigit c = true) : isAsciiLetter c = false := by
  simp only [isAsciiDigit, isAsciiLetter, Bool.and_eq_true, decide_eq_true_eq,
    Bool.or_eq_false_iff, Bool.and_eq_false_iff, decide_eq_false_iff_not] at h ⊢
  omega

lemma takeWhile_all_append (p : Char → Bool) :
    ∀ l1 l2 : List Char, (∀ c ∈ l1, p c = true) →
    (l1 ++ l2).takeWhile p = l1 ++ l2.takeWhile p := by
  intro l1
  induction l1 with
  | nil =>
    intro l2 _
    rfl
  | cons c cs ih =>
    intro l2 hall
    rw [List.cons_append, List.takeWhile_cons, if_pos (hall c (List.mem_cons_self c cs)),
      ih l2 (fun d hd => hall d (List.mem_cons_of_mem c hd)), List.cons_append]

lemma dropWhile_all_append (p : Char → Bool) :
    ∀ l1 l2 : List Char, (∀ c ∈ l1, p c = true) →
    (l1 ++ l2).dropWhile p = l2.dropWhile p := by
  intro l1
  induction l1 with
  | nil =>
    intro l2 _
    rfl
  | cons c cs ih =>
    intro l2 hall
    rw [List.cons_append, List.dropWhile_cons, if_pos (hall c (List.mem_cons_self c cs)),
      ih l2 (fun d hd => hall d (List.mem_cons_of_mem c hd))]

lemma takeWhile_letters_digits (c : Char) (rest : List Char) (d : Char) (ds : List Char)
    (hletters : ∀ ch ∈ c :: rest, isAsciiLetter ch = true)
    (hdigits : ∀ ch ∈ d :: ds, isAsciiDigit ch = true) :
    ((c :: rest) ++ (d :: ds)).takeWhile isAsciiLetter = c :: rest := by
  rw [takeWhile_all_append isAsciiLetter (c :: rest) (d :: ds) hletters,
    List.takeWhile_cons,
    if_neg (by rw [digit_not_letter d (hdigits d (List.mem_cons_self d ds))]; simp),
    List.append_nil]

lemma dropWhile_letters_digits (c : Char) (rest : List Char) (d : Char) (ds : List Char)
    (hletters : ∀ ch ∈ c :: rest, isAsciiLetter ch = true)
    (hdigits : ∀ ch ∈ d :: ds, isAsciiDigit ch = true) :
    ((c :: rest) ++ (d :: ds)).dropWhile isAsciiLetter = d :: ds := by
  rw [dropWhile_all_append isAsciiLetter (c :: rest) (d :: ds) hletters,
    List.dropWhile_cons,
    if_neg (by rw [digit_not_letter d (hdigits d (List.mem_cons_self d ds))]; simp)]

/-- Modelled from the spec: the letters-then-digits pattern exactly as
the claim words it, over the whole string, with no allowance for the
trailing newline Python re.search additionally accepts. -/
def letters_then_digits_per_claim (s : List Char) : Bool :=
  !(s.takeWhile isAsciiLetter).isEmpty
    && !(s.dropWhile isAsciiLetter).isEmpty
    && (s.dropWhile isAsciiLetter).all isAsciiDigit

lemma letters_then_digits_per_claim_iff (s : List Char) :
    letters_then_digits_per_claim s = true ↔
    ∃ letters digits : List Char, s = letters ++ digits ∧ letters ≠ []
      ∧ (∀ ch ∈ letters, isAsciiLetter ch = true)
      ∧ digits ≠ [] ∧ (∀ ch ∈ digits, isAsciiDigit ch = true) := by
  constructor
  · intro h
    rw [letters_then_digits_per_claim] at h
    simp only [Bool.and_eq_true, Bool.not_eq_true'] at h
    obtain ⟨⟨h1, h2⟩, h3⟩ := h
    have h1x : s.takeWhile isAsciiLetter ≠ [] := by
      intro hx
      rw [hx] at h1
      exact absurd h1 (by decide)
    have h2x : s.dropWhile isAsciiLetter ≠ [] := by
      intro hx
      rw [hx] at h2
      exact absurd h2 (by decide)
    refine ⟨s.takeWhile isAsciiLetter, s.dropWhile isAsciiLetter,
      (List.takeWhile_append_dropWhile isAsciiLetter s).symm, h1x, ?_, h2x,
      fun ch hch => (List.all_eq_true.mp h3) ch hch⟩
    intro ch hch
    exact List.mem_takeWhile_imp hch
  · rintro ⟨letters, digits, rfl, hl1, hl2, hd1, hd2⟩
    obtain ⟨c, cs, rfl⟩ := List.exists_cons_of_ne_nil hl1
    obtain ⟨d, ds, rfl⟩ := List.exists_cons_of_ne_nil hd1
    rw [letters_then_digits_per_claim,
      takeWhile_letters_digits c cs d ds hl2 hd2,
      dropWhile_letters_digits c cs d ds hl2 hd2]
    simp only [List.isEmpty_cons, Bool.not_false, Bool.true_and, Bool.and_eq_true,
      List.all_eq_true]
    exact hd2

lemma validate_tile_sizes_go_nil (last : Option (Nat × List Char)) :
    validate_tile_sizes_go last [] = .ok (last.map Prod.fst) := rfl

lemma validate_tile_sizes_go_cons_some (s : Nat) (name : List Char) (img : ImageInfo)
    (rest : List ImageInfo) :
    validate_tile_sizes_go (some (s, name)) (img :: rest) =
      if img.width ≠ img.height then .error (.imageNotSquare img.filename)
      else if img.width ≠ s ∨ img.height ≠ s then
        .error (.imageSizesMismatch name img.filename)
      else validate_tile_sizes_go (some (img.width, img.filename)) rest := rfl

lemma validate_tile_sizes_go_cons_none (img : ImageInfo) (rest : List ImageInfo) :
    validate_tile_sizes_go none (img :: rest) =
      if img.width ≠ img.height then .error (.imageNotSquare img.filename)
      else validate_tile_sizes_go (some (img.width, img.filename)) rest := rfl

lemma validate_tile_sizes_go_error (l : List ImageInfo) :
    ∀ (last : Option (Nat × List Char)) (e : TileboardError),
    validate_tile_sizes_go last l = .error e →
    (∃ f, e = .imageNotSquare f) ∨ (∃ f g, e = .imageSizesMismatch f g) := by
  induction l with
  | nil =>
    intro last e h
    rw [validate_tile_sizes_go_nil] at h
    cases h
  | cons img rest ih =>
    intro last e h
    cases last with
    | some pair =>
      obtain ⟨s, lastname⟩ := pair
      rw [validate_tile_sizes_go_cons_some] at h
      split at h
      · exact Or.inl ⟨img.filename, (by cases h; rfl)⟩
      · split at h
        · exact Or.inr ⟨lastname, img.filename, (by cases h; rfl)⟩
        · exact ih _ e h
    | none =>
      rw [validate_tile_sizes_go_cons_none] at h
      split at h
      · exact Or.inl ⟨img.filename, (by cases h; rfl)⟩
      · exact ih _ e h

lemma validate_tile_sizes_go_ok_some (l : List ImageInfo) :
    ∀ (s : Nat) (name : List Char) (r : Option Nat),
    validate_tile_sizes_go (some (s, name)) l = .ok r →
    r = some s ∧ ∀ img ∈ l, img.width = s ∧ img.height = s := by
  induction l with
  | nil =>
    intro s name r h
    rw [validate_tile_sizes_go_nil] at h
    refine ⟨(by cases h; rfl), by simp⟩
  | cons img rest ih =>
    intro s name r h
    rw [validate_tile_sizes_go_cons_some] at h
    split at h
    · cases h
    · split at h
      · cases h
      · rename_i hsq hsz
        obtain ⟨hr, hrest⟩ := ih img.width img.filename r h
        push_neg at hsz
        obtain ⟨hw, hh⟩ := hsz
        refine ⟨by rw [hr, hw], ?_⟩
        intro im hm
        rcases List.mem_cons.mp hm with h1 | h1
        · subst h1
          push_neg at hsq
          exact ⟨hw, by omega⟩
        · obtain ⟨h2, h3⟩ := hrest im h1
          exact ⟨by rw [h2, hw], by rw [h3, hw]⟩

lemma validate_tile_sizes_ok_nonempty (img0 : ImageInfo) (rest : List ImageInfo)
    (r : Option Nat) (h : validate_tile_sizes (img0 :: rest) = .ok r) :
    ∃ s, r = some s ∧ ∀ img ∈ img0 :: rest, img.width = s ∧ img.height = s := by
  rw [validate_tile_sizes, validate_tile_sizes_go_cons_none] at h
  split at h
  · cases h
  · rename_i hsq
    push_neg at hsq
    obtain ⟨hr, hrest⟩ := validate_tile_sizes_go_ok_some rest img0.width img0.filename r h
    refine ⟨img0.width, hr, ?_⟩
    intro img hm
    rcases List.mem_cons.mp hm with h1 | h1
    · subst h1
      exact ⟨rfl, hsq.symm⟩
    · exact hrest img h1

/-- C9: every error produced by the embedded fallible operations is a
value of the single type TileboardError: board construction only raises
the empty-position error, position parsing only the invalid-position and
out-of-board errors, and tile size validation only the not-square and
size-mismatch errors. -/
theorem single_error_type :
    (∀ (p : List Char) (e : TileboardError),
      Board.make p = .error e → e = .emptyPosition)
    ∧ (∀ (pos : List Char) (b : Board) (e : TileboardError),
      parse_position pos b = .error e
        → e = .invalidPosition pos ∨ e = .positionOutOfBoard pos)
    ∧ (∀ (imgs : List ImageInfo) (e : TileboardError),
      validate_tile_sizes imgs = .error e
        → (∃ f, e = .imageNotSquare f) ∨ (∃ f g, e = .imageSizesMismatch f g)) := by
  refine ⟨?_, ?_, ?_⟩
  · intro p e h
    rw [Board.make] at h
    split at h
    · cases h
    · cases h
      rfl
  · intro pos b e h
    unfold parse_position parse_position_body at h
    split at h
    · exact Or.inl (by cases h; rfl)
    · exact Or.inl (by cases h; rfl)
    · split at h
      · simp only [] at h
        split at h
        · exact Or.inr (by cases h; rfl)
        · cases h
      · exact Or.inl (by cases h; rfl)
  · intro imgs e h
    exact validate_tile_sizes_go_error imgs none e h

/-- Witness for C9: the empty position string produces the
empty-position error of TileboardError. -/
theorem single_error_type_witness :
    Board.make [] = .error .emptyPosition
    ∧ TileboardError.emptyPosition = .emptyPosition :=
  ⟨by decide, single_error_type.1 [] .emptyPosition (by decide)⟩

-- Lemmas about the pieces collected from a board.

lemma dedup_foldl_ne_nil :
    ∀ (l acc : List Char), acc ≠ [] →
    l.foldl (fun acc piece => if piece ∈ acc then acc else acc ++ [piece]) acc ≠ [] := by
  intro l
  induction l with
  | nil =>
    intro acc h
    exact h
  | cons x xs ih =>
    intro acc h
    rw [List.foldl_cons]
    apply ih
    by_cases hx : x ∈ acc
    · rw [if_pos hx]
      exact h
    · rw [if_neg hx]
      simp

lemma tileset_pieces_ne_nil (b : Board) (h : walk_board b true true ≠ []) :
    tileset_pieces b ≠ [] := by
  rw [tileset_pieces]
  cases hw : walk_board b true true with
  | nil => exact absurd hw h
  | cons x xs =>
    rw [List.foldl_cons]
    apply dedup_foldl_ne_nil
    simp

/-- C10: when the board has at least one piece cell, the tile size of the
render is the common side length of the loaded sprites and the
configured tileset size is ignored; when the board has no piece cells,
the configured size is used. -/
theorem tilesize_from_sprites :
    ∀ (b : Board) (load : Char → ImageInfo) (cfg : Nat),
    (walk_board b true true = [] → determine_tilesize b load cfg = .ok cfg)
    ∧ (walk_board b true true ≠ [] →
      (∀ cfg2 : Nat, determine_tilesize b load cfg = determine_tilesize b load cfg2)
      ∧ (∀ t : Nat, determine_tilesize b load cfg = .ok t →
          ∀ piece ∈ tileset_pieces b, (load piece).width = t ∧ (load piece).height = t)) := by
  intro b load cfg
  constructor
  · intro hw
    have hp : tileset_pieces b = [] := by
      rw [tileset_pieces, hw]
      rfl
    rw [determine_tilesize, hp]
    rfl
  · intro hw
    have hne := tileset_pieces_ne_nil b hw
    cases hp : tileset_pieces b with
    | nil => exact absurd hp hne
    | cons p ps =>
      constructor
      · intro cfg2
        rw [determine_tilesize, determine_tilesize, hp, List.map_cons]
        cases hv : validate_tile_sizes (load p :: ps.map load) with
        | error e => rfl
        | ok r =>
          obtain ⟨s, hs, _⟩ := validate_tile_sizes_ok_nonempty _ _ _ hv
          subst hs
          rfl
      · intro t ht piece hmem
        rw [determine_tilesize, hp, List.map_cons] at ht
        cases hv : validate_tile_sizes (load p :: ps.map load) with
        | error e =>
          rw [hv] at ht
          cases ht
        | ok r =>
          obtain ⟨s, hs, hall⟩ := validate_tile_sizes_ok_nonempty _ _ _ hv
          subst hs
          rw [hv] at ht
          have hst : s = t := by cases ht; rfl
          have hmm : load piece ∈ load p :: ps.map load :=
            List.mem_map_of_mem load hmem
          obtain ⟨h1, h2⟩ := hall (load piece) hmm
          exact ⟨by rw [h1, hst], by rw [h2, hst]⟩

/-- Sprite provider used by witnesses: every piece loads as a 10 by 10
image with an empty filename. -/
def load10 : Char → ImageInfo :=
  fun _ => { filename := [], width := 10, height := 10 }

/-- Witness for C10: the all-blank board has no piece cells and falls
back to the configured size 42. -/
theorem tilesize_from_sprites_witness :
    walk_board board8 true true = []
    ∧ determine_tilesize board8 load10 42 = .ok 42 :=
  ⟨by decide, (tilesize_from_sprites board8 load10 42).1 (by decide)⟩

-- Lemmas and theorems about the layout computation.

/-- C8: the canvas dimensions are the board pixel size plus twice each
enabled layer thickness, the outline thicknesses are max(tilesize / 100,
1) when enabled and 0 when disabled, the border thickness is 0 when
disabled, and the board area offset is the sum of the enabled
thicknesses in both coordinates. -/
theorem layout_geometry :
    ∀ (b : Board) (t : Int) (od bd idd : Bool) (g : Int → List Char → Int),
    0 < t →
    (compute_layout b t od bd idd g).image_width
        = t * b.width
          + 2 * (if od then 0 else max (t / 100) 1)
          + 2 * (if bd then 0 else calculate_border_size b t (g (max (t / 3) 12)))
          + 2 * (if idd then 0 else max (t / 100) 1)
    ∧ (compute_layout b t od bd idd g).image_height
        = t * b.height
          + 2 * (if od then 0 else max (t / 100) 1)
          + 2 * (if bd then 0 else calculate_border_size b t (g (max (t / 3) 12)))
          + 2 * (if idd then 0 else max (t / 100) 1)
    ∧ (compute_layout b t od bd idd g).outer_outline_size
        = (if od then 0 else max (t / 100) 1)
    ∧ (compute_layout b t od bd idd g).border_size
        = (if bd then 0 else calculate_border_size b t (g (max (t / 3) 12)))
    ∧ (compute_layout b t od bd idd g).inner_outline_size
        = (if idd then 0 else max (t / 100) 1)
    ∧ (compute_layout b t od bd idd g).board_x
        = (if od then 0 else max (t / 100) 1)
          + (if bd then 0 else calculate_border_size b t (g (max (t / 3) 12)))
          + (if idd then 0 else max (t / 100) 1)
    ∧ (compute_layout b t od bd idd g).board_y
        = (if od then 0 else max (t / 100) 1)
          + (if bd then 0 else calculate_border_size b t (g (max (t / 3) 12)))
          + (if idd then 0 else max (t / 100) 1) := by
  intro b t od bd idd g ht
  refine ⟨?_, ?_, ?_, ?_, ?_, ?_, ?_⟩ <;>
    cases od <;> cases bd <;> cases idd <;>
      simp [compute_layout, calculate_outline_size, calculate_border_font_size] <;>
      ring

/-- Witness for C8: the canvas width equation at tile size 42 on the 8 by
8 board with every layer enabled. -/
theorem layout_geometry_witness :
    (compute_layout board8 42 false false false mono7_sized).image_width
      = 42 * board8.width
        + 2 * (if false then 0 else max ((42 : Int) / 100) 1)
        + 2 * (if false then 0
            else calculate_border_size board8 42 (mono7_sized (max ((42 : Int) / 3) 12)))
        + 2 * (if false then 0 else max ((42 : Int) / 100) 1) :=
  (layout_geometry board8 42 false false false mono7_sized (by norm_num)).1

/-- C6 amended: the layout computation performs no tile size validation;
for every non-positive tile size it still succeeds, with both outline
thicknesses clamped to 1, the border font size clamped to 12, and the
same additive geometry as for positive sizes. -/
theorem layout_total_nonpositive :
    ∀ (b : Board) (t : Int) (od bd idd : Bool) (g : Int → List Char → Int),
    t ≤ 0 →
    calculate_border_font_size t = 12
    ∧ (compute_layout b t od bd idd g).outer_outline_size = (if od then 0 else 1)
    ∧ (compute_layout b t od bd idd g).inner_outline_size = (if idd then 0 else 1)
    ∧ (compute_layout b t od bd idd g).border_size
        = (if bd then 0 else calculate_border_size b t (g 12))
    ∧ (compute_layout b t od bd idd g).image_width
        = t * b.width + 2 * (if od then 0 else 1)
          + 2 * (if bd then 0 else calculate_border_size b t (g 12))
          + 2 * (if idd then 0 else 1)
    ∧ (compute_layout b t od bd idd g).image_height
        = t * b.height + 2 * (if od then 0 else 1)
          + 2 * (if bd then 0 else calculate_border_size b t (g 12))
          + 2 * (if idd then 0 else 1)
    ∧ (compute_layout b t od bd idd g).board_x
        = (if od then 0 else 1)
          + (if bd then 0 else calculate_border_size b t (g 12))
          + (if idd then 0 else 1)
    ∧ (compute_layout b t od bd idd g).board_y
        = (if od then 0 else 1)
          + (if bd then 0 else calculate_border_size b t (g 12))
          + (if idd then 0 else 1) := by
  intro b t od bd idd g ht
  have h100 : max (t / 100) 1 = 1 := max_eq_right (by omega)
  have h3 : max (t / 3) 12 = 12 := max_eq_right (by omega)
  have hf : calculate_border_font_size t = 12 := by
    rw [calculate_border_font_size, h3]
  refine ⟨hf, ?_⟩
  cases od <;> cases bd <;> cases idd <;>
    simp [compute_layout, calculate_outline_size, calculate_border_font_size, h100, h3] <;>
    ring

/-- Counterexample for C6: at the non-positive tile size 0 the layout
computation does not fail; it produces a complete geometry, with outline
thickness 1 and border band 17 on the 8 by 8 board under 7 pixel wide
monospace metrics. -/
theorem layout_zero_tilesize_succeeds :
    compute_layout board8 0 false false false mono7_sized =
      { image_width := 38
        image_height := 38
        outer_outline_size := 1
        border_size := 17
        inner_outline_size := 1
        board_x := 19
        board_y := 19 } := by
  have h8 : to_base26 8 = ['i'] := by
    rw [to_base26, to_base26_go_first_small 8 (by omega)]
  rw [compute_layout, calculate_border_size,
    show board8.width = 8 from rfl, h8]
  decide

/-- Witness for the C6 amended theorem at tile size 0. -/
theorem layout_total_nonpositive_witness :
    (0 : Int) ≤ 0
    ∧ calculate_border_font_size 0 = 12
    ∧ (compute_layout board8 0 true true true mono7_sized).outer_outline_size
        = (if true then 0 else 1) :=
  ⟨le_refl 0,
    (layout_total_nonpositive board8 0 true true true mono7_sized (le_refl 0)).1,
    (layout_total_nonpositive board8 0 true true true mono7_sized (le_refl 0)).2.1⟩

/-- C7 amended: the border font size is max(tilesize / 3, 12) and the
border band is the maximum of tilesize / 2, the measured width of the
label to_base26(width) plus 10, and the measured width of the label
str(height) plus 10.  The measured label to_base26(width) is not one of
the column labels to_base26(0) .. to_base26(width - 1) that the border
actually shows. -/
theorem border_size_formula :
    ∀ (b : Board) (t : Int) (g : List Char → Int), 0 < t →
    calculate_border_font_size t = max (t / 3) 12
    ∧ calculate_border_size b t g
        = max (max (t / 2) (g (to_base26 b.width) + 10)) (g (nat_str b.height) + 10)
    ∧ generate_border_rows_text b false
        = (List.range b.width).map (fun n => (to_base26 n).map Char.toLower)
    ∧ generate_border_cols_text b
        = ((List.range b.height).map (fun n => nat_str (n + 1))).reverse
    ∧ to_base26 b.width ∉ (List.range b.width).map to_base26 := by
  intro b t g ht
  refine ⟨rfl, rfl, by rw [generate_border_rows_text, if_neg (by simp)], rfl, ?_⟩
  intro hmem
  obtain ⟨i, hi, hie⟩ := List.mem_map.mp hmem
  rw [List.mem_range] at hi
  have h1 := from_to_base26 i
  have h2 := from_to_base26 b.width
  rw [hie] at h1
  rw [h1] at h2
  have : (i : Int) = (b.width : Int) := Option.some.inj h2
  omega

/-- Witness for the C7 amended theorem on the 8 by 8 board at tile size
42 with monospace metrics. -/
theorem border_size_formula_witness :
    (0 : Int) < 42
    ∧ calculate_border_size board8 42 mono7
      = max (max ((42 : Int) / 2) (mono7 (to_base26 board8.width) + 10))
          (mono7 (nat_str board8.height) + 10) :=
  ⟨by norm_num, (border_size_formula board8 42 mono7 (by norm_num)).2.1⟩

/-- Counterexample for C7: on a 26 column board of height 1, with 7 pixel
wide monospace metrics and tile size 1, the code measures the two-letter
non-label to_base26(26) and computes band 24, while the longest actual
column label is one letter wide and the claim formula gives 17. -/
theorem border_size_ignores_actual_labels :
    calculate_border_size board26 1 mono7 = 24
    ∧ border_size_per_claim board26 1 mono7 = 17
    ∧ calculate_border_size board26 1 mono7 ≠ border_size_per_claim board26 1 mono7 := by
  have hsmall : ∀ i ∈ List.range 26, mono7 (to_base26 i) = 7 := by
    intro i hi
    rw [List.mem_range] at hi
    rw [to_base26, to_base26_go_first_small i (by omega)]
    rfl
  have h26 : to_base26 26 = ['a', 'a'] := by
    rw [to_base26, to_base26_go_first_big 26 (by omega)]
    norm_num
    rw [to_base26_go_false_small 1 (by omega) (by omega)]
    decide
  have hmap : (List.range 26).map (fun i => mono7 (to_base26 i))
      = List.replicate 26 (7 : Int) := by
    rw [List.eq_replicate_iff]
    constructor
    · simp
    · intro x hx
      obtain ⟨i, hi, hxe⟩ := List.mem_map.mp hx
      rw [← hxe]
      exact hsmall i hi
  have h1 : calculate_border_size board26 1 mono7 = 24 := by
    rw [calculate_border_size, show board26.width = 26 from rfl, h26]
    decide
  have h2 : border_size_per_claim board26 1 mono7 = 17 := by
    rw [border_size_per_claim]
    have hw : board26.width = 26 := rfl
    have hh : board26.height = 1 := rfl
    rw [hw, hh, hmap]
    decide
  exact ⟨h1, h2, by rw [h1, h2]; decide⟩
